import Mathlib

/-! Description extraction pipeline (`pkg/tasks/find_json_descriptions_task.go`)

A shallow embedding of the chunker (`divideIntoChunks`), the recursive extractor
(`extractDescriptions`), the bounded worker pool (`processChunksConcurrently`) and the
part of `ProcessJSONFileTask` that runs once the input file has been decoded.

Modelling conventions.

* A decoded JSON value (`any` as produced by `json.Unmarshal`) is a `JSONValue`.
  A Go `map[string]any` is the list of its entries in the order in which the `range`
  loop of the traversal visits them; every record is traversed exactly once per run, so
  one order per mapping describes a run.  Go maps have unique keys (`UniqueKeys`).
* Go `int` is a 64-bit two's complement integer: additions go through `wrapInt`.
  A chunk size is therefore below `2^63`, and a slice of 16-byte `any` values has fewer
  than `2^62` elements; the theorems about positive chunk sizes carry both bounds, under
  which the index arithmetic of the chunker never wraps.
* A loop that may fail to terminate takes fuel; `Outcome.outOfFuel` for every amount of
  fuel is divergence, `Outcome.panic` is a run-time panic.
* The goroutines of the pool are an interleaving of events; the order of the events
  is an input of the model (`List Event`).
-/

namespace Tasks

/-! ## Constants -/

/-- Name of the file the task reads. -/
def InputFileName : String := "routes-large.json"

/-- Name of the file the task writes. -/
def OutputFileName : String := "descriptions.txt"

/-- Number of routes per chunk. -/
def ChunkSize : Int := 50

/-- Capacity of the semaphore channel. -/
def MaxConcurrency : Nat := 10

/-! ## Data model -/

/-- Decoded JSON, the dynamic types `json.Unmarshal` stores in an `any`:
`nil`, `bool`, `float64` (kept as its 64-bit pattern, never inspected), `string`,
`[]any` and `map[string]any` (entries in visiting order). -/
inductive JSONValue where
  | null : JSONValue
  | bool (b : Bool) : JSONValue
  | number (bits : Nat) : JSONValue
  | string (s : String) : JSONValue
  | array (items : List JSONValue) : JSONValue
  | object (entries : List (String × JSONValue)) : JSONValue

/-- How a call ends: it returns a value, panics, is still running when the fuel is
used up, or was driven by an event list that is not a complete run of the goroutines. -/
inductive Outcome (α : Type) where
  | done (value : α) : Outcome α
  | panic : Outcome α
  | outOfFuel : Outcome α
  | badSchedule : Outcome α
  deriving DecidableEq, Repr

/-- The final output of the workflow (the two `float64` timing fields are left out). -/
structure ProcessJSONFileOutput where
  InputFile : String
  OutputFile : String
  TotalRoutes : Nat
  TotalDescriptions : Nat
  TotalChunks : Nat
  Success : Bool
  deriving DecidableEq, Repr

/-- The pair `(ProcessJSONFileOutput, error)` returned by the task: either an output
with a nil error, or the zero output with an error message. -/
inductive TaskResult where
  | ok (output : ProcessJSONFileOutput) : TaskResult
  | error (message : String) : TaskResult
  deriving DecidableEq, Repr

/-! ## Machine integers and slices -/

/-- Reduction of an integer to the range of a 64-bit signed `int`. -/
def wrapInt (x : Int) : Int := (x + 2 ^ 63) % 2 ^ 64 - 2 ^ 63

/-- The slice expression `routes[lo:hi]`: `none` is the slice-bounds panic.  The upper
bound is checked against the length; the chunker never asks for more than the length,
so the capacity plays no role. -/
def sliceRange {α : Type} (routes : List α) (lo hi : Int) : Option (List α) :=
  if 0 ≤ lo ∧ lo ≤ hi ∧ hi ≤ (routes.length : Int) then
    some ((routes.drop lo.toNat).take (hi - lo).toNat)
  else none

/-! ## Chunker -/

/-- The `for i := 0; i < len(routes); i += chunkSize` loop of `divideIntoChunks`,
started at index `i` with the chunks appended so far. -/
def divideLoop {α : Type} (routes : List α) (chunkSize : Int) :
    Nat → Int → List (List α) → Outcome (List (List α))
  | 0, _, _ => .outOfFuel
  | fuel + 1, i, chunks =>
    if i < (routes.length : Int) then
      let end0 := wrapInt (i + chunkSize)
      let end1 := if end0 > (routes.length : Int) then (routes.length : Int) else end0
      match sliceRange routes i end1 with
      | none => .panic
      | some chunk => divideLoop routes chunkSize fuel (wrapInt (i + chunkSize)) (chunks ++ [chunk])
    else .done chunks

/-- Function `divideIntoChunks`: divides routes into smaller chunks. -/
def divideIntoChunks {α : Type} (fuel : Nat) (routes : List α) (chunkSize : Int) :
    Outcome (List (List α)) :=
  divideLoop routes chunkSize fuel 0 []

/-! ## Extractor -/

mutual
/-- Function `extractDescriptions`: the type switch on the value; the second argument is
the slice behind the `descriptions` pointer, the result is its final content. -/
def extractDescriptions : JSONValue → List String → List String
  | .object entries, descriptions => extractEntries entries descriptions
  | .array items, descriptions => extractItems items descriptions
  | _, descriptions => descriptions
/-- The `for key, value := range v` loop of the mapping case. -/
def extractEntries : List (String × JSONValue) → List String → List String
  | [], descriptions => descriptions
  | (key, value) :: rest, descriptions =>
    if key = "description" then
      match value with
      | .string strValue =>
        if strValue ≠ "" then extractEntries rest (descriptions ++ [strValue])
        else extractEntries rest descriptions
      | _ => extractEntries rest descriptions
    else
      extractEntries rest (extractDescriptions value descriptions)
/-- The `for _, item := range v` loop of the array case; the goroutine body runs the
same loop over the routes of its chunk. -/
def extractItems : List JSONValue → List String → List String
  | [], descriptions => descriptions
  | item :: rest, descriptions => extractItems rest (extractDescriptions item descriptions)
end

mutual
/-- Every mapping inside the value has pairwise distinct keys. -/
def UniqueKeys : JSONValue → Bool
  | .object entries => (entries.map Prod.fst).Nodup && uniqueKeysEntries entries
  | .array items => uniqueKeysItems items
  | _ => true
/-- Every entry value has unique keys. -/
def uniqueKeysEntries : List (String × JSONValue) → Bool
  | [] => true
  | (_, value) :: rest => UniqueKeys value && uniqueKeysEntries rest
/-- Every item has unique keys. -/
def uniqueKeysItems : List JSONValue → Bool
  | [] => true
  | item :: rest => UniqueKeys item && uniqueKeysItems rest
end

/-! ## Worker pool -/

/-- Where one goroutine of the pool stands. -/
inductive Phase where
  | pending : Phase
  | holding : Phase
  | stored : Phase
  | released : Phase
  | finished : Phase
  deriving DecidableEq, Repr

/-- One atomic action of the goroutine started for chunk `chunkID`:
`semaphore <- struct{}{}`, the extraction loop followed by `results[chunkID] = ...`,
the deferred `<-semaphore`, the deferred `wg.Done()`. -/
inductive Event where
  | acquire (chunkID : Nat) : Event
  | store (chunkID : Nat) : Event
  | release (chunkID : Nat) : Event
  | done (chunkID : Nat) : Event
  deriving DecidableEq, Repr

/-- Shared state of `processChunksConcurrently`: the phase of each goroutine, the number
of tokens buffered in the semaphore channel, and the `results` slice. -/
structure PoolState where
  phases : List Phase
  semaphore : Nat
  results : List (List String)
  deriving DecidableEq, Repr

/-- The goroutine body between acquire and release: the descriptions of one chunk. -/
def chunkDescriptions (routes : List JSONValue) : List String :=
  extractItems routes []

/-- State after the `for i, chunk := range chunks` loop has started every goroutine. -/
def initPool (chunks : List (List JSONValue)) : PoolState :=
  { phases := List.replicate chunks.length Phase.pending
    semaphore := 0
    results := List.replicate chunks.length [] }

/-- One event, `none` when it is not enabled: a send on the channel blocks while
`capacity` tokens are buffered, a receive blocks while the channel is empty, and each
goroutine performs its actions in program order. -/
def step (capacity : Nat) (chunks : List (List JSONValue)) (s : PoolState) :
    Event → Option PoolState
  | .acquire i =>
    if s.phases[i]? = some Phase.pending ∧ s.semaphore < capacity then
      some { s with phases := s.phases.set i Phase.holding, semaphore := s.semaphore + 1 }
    else none
  | .store i =>
    if s.phases[i]? = some Phase.holding then
      some { s with phases := s.phases.set i Phase.stored,
                    results := s.results.set i (chunkDescriptions (chunks.getD i [])) }
    else none
  | .release i =>
    if s.phases[i]? = some Phase.stored ∧ 0 < s.semaphore then
      some { s with phases := s.phases.set i Phase.released, semaphore := s.semaphore - 1 }
    else none
  | .done i =>
    if s.phases[i]? = some Phase.released then
      some { s with phases := s.phases.set i Phase.finished }
    else none

/-- Runs a list of events from a state. -/
def runEvents (capacity : Nat) (chunks : List (List JSONValue)) :
    List Event → PoolState → Option PoolState
  | [], s => some s
  | e :: rest, s =>
    match step capacity chunks s e with
    | some s1 => runEvents capacity chunks rest s1
    | none => none

/-- Number of goroutines between acquiring and releasing the semaphore. -/
def slotHolders (s : PoolState) : Nat :=
  s.phases.countP (fun p => p = Phase.holding ∨ p = Phase.stored)

/-- What `wg.Wait()` waits for: every goroutine has called `wg.Done()`. -/
def allFinished (s : PoolState) : Bool :=
  s.phases.all (fun p => p = Phase.finished)

/-- The pool with a semaphore of the given capacity: runs the events, and once
`wg.Wait()` can return flattens `results` in index order. -/
def processChunksWith (capacity : Nat) (schedule : List Event)
    (chunks : List (List JSONValue)) : Outcome (List String) :=
  match runEvents capacity chunks schedule (initPool chunks) with
  | some s => if allFinished s then .done s.results.flatten else .badSchedule
  | none => .badSchedule

/-- Function `processChunksConcurrently`: the pool with `MaxConcurrency` slots. -/
def processChunksConcurrently (schedule : List Event) (chunks : List (List JSONValue)) :
    Outcome (List String) :=
  processChunksWith MaxConcurrency schedule chunks

/-- The run in which the goroutines execute one after the other in chunk order. -/
def sequentialSchedule (n : Nat) : List Event :=
  (List.range n).flatMap (fun i => [Event.acquire i, Event.store i, Event.release i, Event.done i])

/-- What holds in every state of the pool reached from `initPool chunks`: one phase
and one result slot per chunk, as many buffered tokens as goroutines between acquire and
release, at most `capacity` of them, and the descriptions of chunk `i` in slot `i` as soon
as goroutine `i` has stored them. -/
def PoolInv (capacity : Nat) (chunks : List (List JSONValue)) (s : PoolState) : Prop :=
  s.phases.length = chunks.length ∧ s.results.length = chunks.length ∧
  s.semaphore = slotHolders s ∧ s.semaphore ≤ capacity ∧
  ∀ i, (s.phases[i]? = some Phase.stored ∨ s.phases[i]? = some Phase.released ∨
      s.phases[i]? = some Phase.finished) →
    s.results[i]? = some (chunkDescriptions (chunks.getD i []))

/-- The state of the sequential run when the first `j` of `n` goroutines are done. -/
def SeqAt (n j : Nat) (s : PoolState) : Prop :=
  s.semaphore = 0 ∧
  ∀ i, s.phases[i]? = if i < j then some Phase.finished
    else if i < n then some Phase.pending else none

/-! ## Task -/

/-- Function `ProcessJSONFileTask` from the point where `routes` has been decoded.
`writeError` is the result of `os.WriteFile` (`none` is success). -/
def ProcessJSONFileTask (fuel : Nat) (schedule : List Event) (writeError : Option String)
    (routes : List JSONValue) : Outcome TaskResult :=
  match divideIntoChunks fuel routes ChunkSize with
  | .done chunks =>
    match processChunksConcurrently schedule chunks with
    | .done allDescriptions =>
      if allDescriptions.length = 0 then
        .done (.error "no descriptions found in JSON file")
      else
        match writeError with
        | some err => .done (.error ("failed to write output file: " ++ err))
        | none =>
          .done (.ok
            { InputFile := InputFileName
              OutputFile := OutputFileName
              TotalRoutes := routes.length
              TotalDescriptions := allDescriptions.length
              TotalChunks := chunks.length
              Success := true })
    | .panic => .panic
    | .outOfFuel => .outOfFuel
    | .badSchedule => .badSchedule
  | .panic => .panic
  | .outOfFuel => .outOfFuel
  | .badSchedule => .badSchedule

/-! ## Reference definitions, following the words of the specification -/

/-- Ceiling of `n / k`. -/
def ceilDiv (n k : Nat) : Nat := (n + k - 1) / k

/-- Chunk `i` of the specification: the elements of the half-open range
`[i * k, min ((i + 1) * k) n)`. -/
def referenceChunk {α : Type} (routes : List α) (k i : Nat) : List α :=
  (routes.drop (i * k)).take (min ((i + 1) * k) routes.length - i * k)

/-- The chunking of the specification: `ceil (n / k)` chunks, chunk `i` covering
`[i * k, min ((i + 1) * k) n)`. -/
def referenceChunks {α : Type} (routes : List α) (k : Nat) : List (List α) :=
  (List.range (ceilDiv routes.length k)).map (referenceChunk routes k)

/-- The strings one record contributes: extraction into an empty output. -/
def recordDescriptions (record : JSONValue) : List String :=
  extractDescriptions record []

/-- A flat record `{"description": s}`. -/
def flatRecord (s : String) : JSONValue :=
  .object [("description", .string s)]

mutual
/-- The values the specification asks for: every non-empty string that is the value of a
`"description"` entry of a mapping occurring at any depth inside the value. -/
def describedStrings : JSONValue → List String
  | .object entries => describedInEntries entries
  | .array items => describedInItems items
  | _ => []
/-- The described strings of the entries of one mapping and of everything below them. -/
def describedInEntries : List (String × JSONValue) → List String
  | [] => []
  | (key, value) :: rest =>
    (if key = "description" then
      match value with
      | .string s => if s ≠ "" then [s] else []
      | _ => []
    else []) ++ describedStrings value ++ describedInEntries rest
/-- The described strings of the items of one array. -/
def describedInItems : List JSONValue → List String
  | [] => []
  | item :: rest => describedStrings item ++ describedInItems rest
end

/-! # Theorems -/

/-! ## The extractor appends to its output -/

mutual
theorem extractDescriptions_append (v : JSONValue) (out : List String) :
    extractDescriptions v out = out ++ extractDescriptions v [] := by
  cases v with
  | object entries =>
    simp only [extractDescriptions]
    exact extractEntries_append entries out
  | array items =>
    simp only [extractDescriptions]
    exact extractItems_append items out
  | null => simp [extractDescriptions]
  | bool b => simp [extractDescriptions]
  | number n => simp [extractDescriptions]
  | string s => simp [extractDescriptions]
theorem extractEntries_append (entries : List (String × JSONValue)) (out : List String) :
    extractEntries entries out = out ++ extractEntries entries [] := by
  cases entries with
  | nil => simp [extractEntries]
  | cons e rest =>
    obtain ⟨key, value⟩ := e
    by_cases hk : key = "description"
    · subst hk
      cases value with
      | string s =>
        by_cases hs : s = ""
        · simp only [extractEntries, hs, ne_eq, not_true_eq_false, if_false, if_true]
          exact extractEntries_append rest out
        · simp only [extractEntries, hs, ne_eq, not_false_eq_true, if_true]
          rw [extractEntries_append rest (out ++ [s]), extractEntries_append rest ([] ++ [s])]
          simp
      | null => simp only [extractEntries, if_true]; exact extractEntries_append rest out
      | bool b => simp only [extractEntries, if_true]; exact extractEntries_append rest out
      | number n => simp only [extractEntries, if_true]; exact extractEntries_append rest out
      | array items => simp only [extractEntries, if_true]; exact extractEntries_append rest out
      | object es => simp only [extractEntries, if_true]; exact extractEntries_append rest out
    · simp only [extractEntries, hk, if_false]
      rw [extractEntries_append rest (extractDescriptions value out),
        extractEntries_append rest (extractDescriptions value []),
        extractDescriptions_append value out]
      simp
theorem extractItems_append (items : List JSONValue) (out : List String) :
    extractItems items out = out ++ extractItems items [] := by
  cases items with
  | nil => simp [extractItems]
  | cons item rest =>
    simp only [extractItems]
    rw [extractItems_append rest (extractDescriptions item out),
      extractItems_append rest (extractDescriptions item []),
      extractDescriptions_append item out]
    simp
end

theorem extractItems_eq_flatMap (items : List JSONValue) :
    extractItems items [] = items.flatMap recordDescriptions := by
  induction items with
  | nil => simp [extractItems]
  | cons item rest ih =>
    simp only [extractItems, List.flatMap_cons]
    rw [extractItems_append, ih]
    rfl

/-! ## Chunker: the loop computes the reference chunking -/

theorem wrapInt_of_range (x : Int) (h0 : -2 ^ 63 ≤ x) (h1 : x < 2 ^ 63) : wrapInt x = x := by
  unfold wrapInt
  rw [Int.emod_eq_of_lt (by omega) (by omega)]
  omega

theorem lt_ceilDiv_iff (n k m : Nat) (hk : 1 ≤ k) : m < ceilDiv n k ↔ m * k < n := by
  unfold ceilDiv
  rw [Nat.lt_iff_add_one_le, Nat.le_div_iff_mul_le (by omega), Nat.add_mul]
  omega

theorem ceilDiv_le (n k : Nat) (hk : 1 ≤ k) : ceilDiv n k ≤ n := by
  by_contra h
  have h1 : n < ceilDiv n k := by omega
  rw [lt_ceilDiv_iff n k n hk] at h1
  have : n * 1 ≤ n * k := Nat.mul_le_mul_left n hk
  omega

theorem sliceRange_eq_referenceChunk {α : Type} (routes : List α) (k m : Nat)
    (hm : m * k < routes.length) :
    sliceRange routes ((m * k : Nat) : Int)
      (if (((m + 1) * k : Nat) : Int) > (routes.length : Int) then (routes.length : Int)
        else (((m + 1) * k : Nat) : Int)) = some (referenceChunk routes k m) := by
  have hle : m * k ≤ (m + 1) * k := by rw [Nat.add_mul]; omega
  unfold sliceRange referenceChunk
  by_cases hgt : (m + 1) * k > routes.length
  · have hgt' : (((m + 1) * k : Nat) : Int) > (routes.length : Int) := by exact_mod_cast hgt
    rw [if_pos hgt', if_pos (by omega)]
    congr 2
    rw [Nat.min_eq_right (by omega)]
    omega
  · have hgt' : ¬ (((m + 1) * k : Nat) : Int) > (routes.length : Int) := by
      intro h; exact hgt (by exact_mod_cast h)
    rw [if_neg hgt', if_pos (by omega)]
    congr 2
    rw [Nat.min_eq_left (by omega)]
    omega


theorem next_index_bound (m k n : Nat) (hk63 : k < 2 ^ 63) (hlen : n < 2 ^ 62)
    (hm : m * k < n) : (m + 1) * k < 2 ^ 63 := by
  rcases Nat.eq_zero_or_pos m with h0 | hpos
  · subst h0; simpa using hk63
  · have : k ≤ m * k := Nat.le_mul_of_pos_left k hpos
    rw [Nat.add_mul]; omega

theorem wrapInt_next_index (m k : Nat) (hbound : (m + 1) * k < 2 ^ 63) :
    wrapInt (((m * k : Nat) : Int) + (k : Int)) = (((m + 1) * k : Nat) : Int) := by
  have hsum : ((m * k : Nat) : Int) + (k : Int) = (((m + 1) * k : Nat) : Int) := by
    push_cast; ring
  rw [hsum]
  apply wrapInt_of_range _ (le_trans (by norm_num) (Int.natCast_nonneg _))
  have : (((m + 1) * k : Nat) : Int) < ((2 ^ 63 : Nat) : Int) := Int.ofNat_lt.2 hbound
  simpa using this

theorem divideLoop_reference {α : Type} (routes : List α) (k : Nat) (hk : 1 ≤ k)
    (hk63 : k < 2 ^ 63) (hlen : routes.length < 2 ^ 62) :
    ∀ (fuel m : Nat) (acc : List (List α)), ceilDiv routes.length k - m < fuel →
      divideLoop routes (k : Int) fuel ((m * k : Nat) : Int) acc
        = .done (acc ++ (List.range' m (ceilDiv routes.length k - m)).map
            (referenceChunk routes k)) := by
  intro fuel
  induction fuel with
  | zero => intro m acc h; exact absurd h (Nat.not_lt_zero _)
  | succ fuel ih =>
    intro m acc hfuel
    by_cases hm : m * k < routes.length
    · have hm' : ((m * k : Nat) : Int) < (routes.length : Int) := Int.ofNat_lt.2 hm
      have hlt : m < ceilDiv routes.length k := (lt_ceilDiv_iff _ k m hk).2 hm
      have hwrap := wrapInt_next_index m k (next_index_bound m k _ hk63 hlen hm)
      have hslice := sliceRange_eq_referenceChunk routes k m hm
      have hfuel' : ceilDiv routes.length k - (m + 1) < fuel := by
        clear hk63 hlen hwrap hslice; omega
      have hcnt : ceilDiv routes.length k - m = (ceilDiv routes.length k - (m + 1)) + 1 := by
        clear hk63 hlen hwrap hslice; omega
      have step : divideLoop routes (k : Int) (fuel + 1) ((m * k : Nat) : Int) acc
          = divideLoop routes (k : Int) fuel (((m + 1) * k : Nat) : Int)
              (acc ++ [referenceChunk routes k m]) := by
        rw [divideLoop, if_pos hm']
        simp only [hwrap, hslice]
      rw [step, ih (m + 1) _ hfuel', hcnt, List.range'_succ, List.map_cons,
        List.append_assoc, List.singleton_append]
    · have hm' : ¬ ((m * k : Nat) : Int) < (routes.length : Int) := fun h => hm (Int.ofNat_lt.1 h)
      have hge : ¬ m < ceilDiv routes.length k := fun h => hm ((lt_ceilDiv_iff _ k m hk).1 h)
      have hz : ceilDiv routes.length k - m = 0 := by clear hk63 hlen; omega
      rw [divideLoop, if_neg hm', hz]
      simp

theorem divideIntoChunks_reference {α : Type} (routes : List α) (k : Nat) (hk : 1 ≤ k)
    (hk63 : k < 2 ^ 63) (hlen : routes.length < 2 ^ 62) (fuel : Nat)
    (hfuel : routes.length < fuel) :
    divideIntoChunks fuel routes (k : Int) = .done (referenceChunks routes k) := by
  have hc := ceilDiv_le routes.length k hk
  have h := divideLoop_reference routes k hk hk63 hlen fuel 0 [] (Nat.lt_of_le_of_lt (Nat.sub_le _ _) (Nat.lt_of_le_of_lt hc hfuel))
  simp only [Nat.zero_mul, Nat.cast_zero, Nat.sub_zero, List.nil_append] at h
  unfold divideIntoChunks referenceChunks
  rw [h, List.range_eq_range']

theorem referenceChunk_append_drop {α : Type} (routes : List α) (k m : Nat) :
    referenceChunk routes k m ++ routes.drop ((m + 1) * k) = routes.drop (m * k) := by
  have hle : m * k ≤ (m + 1) * k := by rw [Nat.add_mul]; omega
  unfold referenceChunk
  have hdrop : routes.drop ((m + 1) * k)
      = (routes.drop (m * k)).drop (min ((m + 1) * k) routes.length - m * k) := by
    rw [List.drop_drop]
    by_cases h : (m + 1) * k ≤ routes.length
    · rw [Nat.min_eq_left h]; congr 1; omega
    · have h1 : routes.length ≤ (m + 1) * k := by omega
      rw [Nat.min_eq_right h1, List.drop_eq_nil_of_le h1, List.drop_eq_nil_of_le (by omega)]
  rw [hdrop, List.take_append_drop]

theorem referenceChunks_from_flatten {α : Type} (routes : List α) (k : Nat) (hk : 1 ≤ k) :
    ∀ (d m : Nat), m + d = ceilDiv routes.length k →
      ((List.range' m d).map (referenceChunk routes k)).flatten = routes.drop (m * k) := by
  intro d
  induction d with
  | zero =>
    intro m hm
    have hge : ¬ m * k < routes.length := fun h => by
      have := (lt_ceilDiv_iff routes.length k m hk).2 h
      omega
    simp only [List.range'_zero, List.map_nil, List.flatten_nil]
    exact (List.drop_eq_nil_of_le (by omega)).symm
  | succ d ih =>
    intro m hm
    rw [List.range'_succ, List.map_cons, List.flatten_cons, ih (m + 1) (by omega)]
    exact referenceChunk_append_drop routes k m

theorem referenceChunks_flatten {α : Type} (routes : List α) (k : Nat) (hk : 1 ≤ k) :
    (referenceChunks routes k).flatten = routes := by
  unfold referenceChunks
  rw [List.range_eq_range', referenceChunks_from_flatten routes k hk _ 0 (by omega)]
  simp

theorem referenceChunks_length {α : Type} (routes : List α) (k : Nat) :
    (referenceChunks routes k).length = ceilDiv routes.length k := by
  simp [referenceChunks]

theorem referenceChunks_getElem? {α : Type} (routes : List α) (k i : Nat)
    (hi : i < ceilDiv routes.length k) :
    (referenceChunks routes k)[i]? = some (referenceChunk routes k i) := by
  simp [referenceChunks, List.getElem?_range hi]

/-! ## Chunker: chunk sizes below one -/

theorem divideLoop_zero_chunkSize {α : Type} (routes : List α) (hne : routes ≠ []) :
    ∀ (fuel : Nat) (acc : List (List α)), divideLoop routes 0 fuel 0 acc = .outOfFuel := by
  have hpos : (0 : Int) < (routes.length : Int) := by
    have := List.length_pos.2 hne
    exact_mod_cast this
  have hw : wrapInt (0 + 0) = 0 := by decide
  intro fuel
  induction fuel with
  | zero => intro acc; rfl
  | succ fuel ih =>
    intro acc
    have hend : (if (0 : Int) > (routes.length : Int) then (routes.length : Int) else 0) = 0 :=
      if_neg (by omega)
    have hslice : sliceRange routes 0 0 = some [] := by
      unfold sliceRange
      rw [if_pos ⟨le_refl _, le_refl _, by omega⟩]
      simp
    rw [divideLoop, if_pos hpos]
    simp only [hw, hend, hslice]
    exact ih _

theorem divideLoop_negative_chunkSize {α : Type} (routes : List α) (hne : routes ≠ [])
    (k : Int) (hneg : k < 0) (hmin : -2 ^ 63 ≤ k) (fuel : Nat) :
    divideLoop routes k (fuel + 1) 0 [] = .panic := by
  have hpos : (0 : Int) < (routes.length : Int) := by
    have := List.length_pos.2 hne
    exact_mod_cast this
  have hw : wrapInt (0 + k) = k := by
    rw [Int.zero_add]
    exact wrapInt_of_range k hmin (lt_trans hneg (by norm_num))
  have hend : (if k > (routes.length : Int) then (routes.length : Int) else k) = k :=
    if_neg (by omega)
  have hslice : sliceRange routes 0 k = none := by
    unfold sliceRange
    exact if_neg (fun h => by omega)
  rw [divideLoop, if_pos hpos]
  simp only [hw, hend, hslice]

/-! ## Claims about the chunker -/

/-- C1: for every sequence of records and every chunk size `k ≥ 1` (a 64-bit `int`, the
sequence shorter than `2^62`), `divideIntoChunks` returns, given fuel for one iteration
per record, chunks whose concatenation in index order is exactly the sequence. -/
theorem divideIntoChunks_flatten {α : Type} (routes : List α) (k : Nat) (hk : 1 ≤ k)
    (hk63 : k < 2 ^ 63) (hlen : routes.length < 2 ^ 62) (fuel : Nat)
    (hfuel : routes.length < fuel) :
    ∃ chunks, divideIntoChunks fuel routes (k : Int) = .done chunks ∧
      chunks.flatten = routes :=
  ⟨referenceChunks routes k, divideIntoChunks_reference routes k hk hk63 hlen fuel hfuel,
    referenceChunks_flatten routes k hk⟩

/-- Witness of C1: five records, chunk size 2. -/
theorem divideIntoChunks_flatten_witness :
    ∃ chunks, divideIntoChunks 6 [10, 11, 12, 13, 14] ((2 : Nat) : Int) = .done chunks ∧
      chunks.flatten = [10, 11, 12, 13, 14] :=
  divideIntoChunks_flatten [10, 11, 12, 13, 14] 2 (by decide) (by decide) (by decide) 6
    (by decide)

/-- C7: for every sequence of length `n` and every chunk size `k ≥ 1`, `divideIntoChunks`
returns the reference chunking: `ceil (n / k)` chunks (none for the empty sequence), chunk
`i` being the elements of the half-open range `[i * k, min ((i + 1) * k) n)`. -/
theorem divideIntoChunks_eq_reference {α : Type} (routes : List α) (k : Nat) (hk : 1 ≤ k)
    (hk63 : k < 2 ^ 63) (hlen : routes.length < 2 ^ 62) (fuel : Nat)
    (hfuel : routes.length < fuel) :
    ∃ chunks, divideIntoChunks fuel routes (k : Int) = .done chunks ∧
      chunks = referenceChunks routes k ∧
      chunks.length = (routes.length + k - 1) / k ∧
      (routes = [] → chunks = []) ∧
      ∀ i, i < (routes.length + k - 1) / k →
        chunks[i]? = some ((routes.drop (i * k)).take
          (min ((i + 1) * k) routes.length - i * k)) := by
  refine ⟨referenceChunks routes k,
    divideIntoChunks_reference routes k hk hk63 hlen fuel hfuel, rfl,
    referenceChunks_length routes k, ?_, fun i hi => referenceChunks_getElem? routes k i hi⟩
  intro h
  subst h
  have hz : ceilDiv ([] : List α).length k = 0 := by
    have := ceilDiv_le ([] : List α).length k hk
    simpa using this
  simp only [List.length_nil] at hz
  simp [referenceChunks, hz]

/-- Witness of C7: five records, chunk size 2, three chunks. -/
theorem divideIntoChunks_eq_reference_witness :
    ∃ chunks, divideIntoChunks 6 ["a", "b", "c", "d", "e"] ((2 : Nat) : Int) = .done chunks ∧
      chunks = referenceChunks ["a", "b", "c", "d", "e"] 2 ∧
      chunks.length = (["a", "b", "c", "d", "e"].length + 2 - 1) / 2 ∧
      (["a", "b", "c", "d", "e"] = [] → chunks = []) ∧
      ∀ i, i < (["a", "b", "c", "d", "e"].length + 2 - 1) / 2 →
        chunks[i]? = some ((["a", "b", "c", "d", "e"].drop (i * 2)).take
          (min ((i + 1) * 2) ["a", "b", "c", "d", "e"].length - i * 2)) :=
  divideIntoChunks_eq_reference ["a", "b", "c", "d", "e"] 2 (by decide) (by decide)
    (by decide) 6 (by decide)

/-- C5, as stated, fails: with a chunk size below one `divideIntoChunks` returns
(zero) chunks for the empty sequence, never returns for a non-empty sequence and chunk
size 0, and panics for a non-empty sequence and chunk size -1. -/
theorem divideIntoChunks_invalid_size_counterexample :
    divideIntoChunks 1 ([] : List JSONValue) 0 = .done [] ∧
    (∀ fuel, divideIntoChunks fuel [JSONValue.null] 0 = .outOfFuel) ∧
    divideIntoChunks 1 [JSONValue.null] (-1) = .panic :=
  ⟨rfl, fun fuel => divideLoop_zero_chunkSize [JSONValue.null] (by simp) fuel [],
    divideLoop_negative_chunkSize [JSONValue.null] (by simp) (-1) (by decide) (by decide) 0⟩

/-- C5, amended: `divideIntoChunks` validates nothing and has no error result.  For a
chunk size below one it returns zero chunks when the sequence is empty; when the
sequence is not empty it never returns for chunk size 0 and panics on its first slice
expression for a negative chunk size. -/
theorem divideIntoChunks_invalid_size {α : Type} (routes : List α) (k : Int) (hk : k < 1)
    (hmin : -2 ^ 63 ≤ k) :
    (routes = [] → ∀ fuel, divideIntoChunks (fuel + 1) routes k = .done []) ∧
    (routes ≠ [] → k = 0 → ∀ fuel, divideIntoChunks fuel routes k = .outOfFuel) ∧
    (routes ≠ [] → k < 0 → ∀ fuel, divideIntoChunks (fuel + 1) routes k = .panic) := by
  refine ⟨?_, ?_, ?_⟩
  · intro h fuel
    subst h
    simp [divideIntoChunks, divideLoop]
  · intro hne h0 fuel
    subst h0
    exact divideLoop_zero_chunkSize routes hne fuel []
  · intro hne hneg fuel
    exact divideLoop_negative_chunkSize routes hne k hneg hmin fuel

/-- Witness of the amended C5: one record, chunk size 0. -/
theorem divideIntoChunks_invalid_size_witness :
    ([JSONValue.null] = [] → ∀ fuel, divideIntoChunks (fuel + 1) [JSONValue.null] 0 = .done []) ∧
    ([JSONValue.null] ≠ [] → (0 : Int) = 0 →
      ∀ fuel, divideIntoChunks fuel [JSONValue.null] 0 = .outOfFuel) ∧
    ([JSONValue.null] ≠ [] → (0 : Int) < 0 →
      ∀ fuel, divideIntoChunks (fuel + 1) [JSONValue.null] 0 = .panic) :=
  divideIntoChunks_invalid_size [JSONValue.null] 0 (by decide) (by decide)

/-! ## Claims about the extractor -/

theorem extractEntries_concat (pre post : List (String × JSONValue)) (out : List String) :
    extractEntries (pre ++ post) out = extractEntries post (extractEntries pre out) := by
  induction pre generalizing out with
  | nil => simp [extractEntries]
  | cons e rest ih =>
    obtain ⟨key, value⟩ := e
    by_cases hk : key = "description"
    · subst hk
      cases value with
      | string s =>
        by_cases hs : s = ""
        · simp only [List.cons_append, extractEntries, hs, ne_eq, not_true_eq_false,
            if_false, if_true]
          exact ih out
        · simp only [List.cons_append, extractEntries, hs, ne_eq, not_false_eq_true, if_true]
          exact ih _
      | null => simp only [List.cons_append, extractEntries, if_true]; exact ih out
      | bool b => simp only [List.cons_append, extractEntries, if_true]; exact ih out
      | number n => simp only [List.cons_append, extractEntries, if_true]; exact ih out
      | array items => simp only [List.cons_append, extractEntries, if_true]; exact ih out
      | object es => simp only [List.cons_append, extractEntries, if_true]; exact ih out
    · simp only [List.cons_append, extractEntries, hk, if_false]
      exact ih _

theorem extractEntries_description_dropped (v : JSONValue)
    (hv : ∀ s, v = JSONValue.string s → s = "") (post : List (String × JSONValue))
    (out : List String) :
    extractEntries (("description", v) :: post) out = extractEntries post out := by
  cases v with
  | string s =>
    have hs : s = "" := hv s rfl
    simp [extractEntries, hs]
  | null => simp [extractEntries]
  | bool b => simp [extractEntries]
  | number n => simp [extractEntries]
  | array items => simp [extractEntries]
  | object es => simp [extractEntries]

/-- C4: a mapping entry whose key is `"description"` and whose value is not a string, or is
the empty string, contributes nothing and is not descended into: the extraction over the
mapping equals the extraction over the mapping without that entry, whatever the value
contains; and `{"description": {"description": "nested"}}` yields no string. -/
theorem extractDescriptions_key_short_circuit (pre post : List (String × JSONValue))
    (v : JSONValue) (out : List String) (hv : ∀ s, v = JSONValue.string s → s = "") :
    extractDescriptions (.object (pre ++ ("description", v) :: post)) out
        = extractDescriptions (.object (pre ++ post)) out ∧
      extractDescriptions
        (.object [("description", .object [("description", .string "nested")])]) [] = [] := by
  refine ⟨?_, by decide⟩
  simp only [extractDescriptions]
  rw [extractEntries_concat, extractEntries_concat, extractEntries_description_dropped v hv]

/-- Witness of C4: the value under the key is a mapping that itself holds a description. -/
theorem extractDescriptions_key_short_circuit_witness :
    extractDescriptions (.object ([("id", .number 7)] ++
        ("description", .object [("description", .string "nested")]) ::
          [("name", .object [("description", .string "kept")])])) ["first"]
        = extractDescriptions (.object ([("id", .number 7)] ++
            [("name", .object [("description", .string "kept")])])) ["first"] ∧
      extractDescriptions
        (.object [("description", .object [("description", .string "nested")])]) [] = [] :=
  extractDescriptions_key_short_circuit [("id", .number 7)]
    [("name", .object [("description", .string "kept")])]
    (.object [("description", .string "nested")]) ["first"] (by intro s h; cases h)

/-- C8: on the single-entry mapping `{"description": s}` and an empty output, the
extraction yields `[s]` when `s` is not empty and nothing when `s` is the empty string. -/
theorem extractDescriptions_single_entry (s : String) :
    extractDescriptions (.object [("description", .string s)]) []
      = if s = "" then [] else [s] := by
  by_cases hs : s = ""
  · simp [extractDescriptions, extractEntries, hs]
  · simp [extractDescriptions, extractEntries, hs]

/-- C3 fails on the code: in `{"description": [{"description": "deep"}]}` (unique keys)
the string `"deep"` is the value of a `"description"` entry of a mapping inside the
value, and the extraction returns no string at all. -/
theorem extractDescriptions_misses_nested :
    UniqueKeys (.object [("description", .array [.object [("description", .string "deep")]])])
        = true ∧
      "deep" ∈ describedStrings
        (.object [("description", .array [.object [("description", .string "deep")]])]) ∧
      extractDescriptions
        (.object [("description", .array [.object [("description", .string "deep")]])]) []
        = [] := by
  decide

/-! ## Worker pool: invariant of the reachable states -/

theorem countP_set_add {α : Type} (p : α → Bool) (a b : α) :
    ∀ (l : List α) (i : Nat), l[i]? = some a →
      (l.set i b).countP p + (if p a then 1 else 0) = l.countP p + (if p b then 1 else 0) := by
  intro l
  induction l with
  | nil => intro i h; simp at h
  | cons x xs ih =>
    intro i h
    cases i with
    | zero =>
      simp only [List.getElem?_cons_zero, Option.some.injEq] at h
      subst h
      simp only [List.set_cons_zero, List.countP_cons]
      omega
    | succ i =>
      simp only [List.getElem?_cons_succ] at h
      have := ih i h
      simp only [List.set_cons_succ, List.countP_cons]
      omega

theorem slotHolders_set (s : PoolState) (i : Nat) (a b : Phase) (h : s.phases[i]? = some a)
    (sem : Nat) (res : List (List String)) :
    slotHolders { phases := s.phases.set i b, semaphore := sem, results := res }
        + (if a = Phase.holding ∨ a = Phase.stored then 1 else 0)
      = slotHolders s + (if b = Phase.holding ∨ b = Phase.stored then 1 else 0) := by
  have := countP_set_add (fun p => decide (p = Phase.holding ∨ p = Phase.stored)) a b
    s.phases i h
  simpa [slotHolders] using this

theorem poolInv_init (capacity : Nat) (chunks : List (List JSONValue)) :
    PoolInv capacity chunks (initPool chunks) := by
  refine ⟨by simp [initPool], by simp [initPool], ?_, by simp [initPool], ?_⟩
  · simp [initPool, slotHolders, List.countP_replicate]
  · intro i h
    simp only [initPool, List.getElem?_replicate] at h
    rcases h with h | h | h <;> split at h <;> simp at h

theorem getElem?_set_phase (l : List Phase) (i j : Nat) (a b c : Phase)
    (hi : l[i]? = some a) (hj : (l.set i b)[j]? = some c) :
    (j = i ∧ c = b) ∨ (j ≠ i ∧ l[j]? = some c) := by
  by_cases hij : i = j
  · subst hij
    have hlt : i < l.length := (List.getElem?_eq_some_iff.1 hi).1
    rw [List.getElem?_set_self hlt] at hj
    left
    exact ⟨rfl, (Option.some.inj hj).symm⟩
  · rw [List.getElem?_set_ne hij] at hj
    right
    exact ⟨fun h => hij h.symm, hj⟩

theorem poolInv_step (capacity : Nat) (chunks : List (List JSONValue)) (s s1 : PoolState)
    (e : Event) (hinv : PoolInv capacity chunks s) (hstep : step capacity chunks s e = some s1) :
    PoolInv capacity chunks s1 := by
  obtain ⟨hpl, hrl, hsem, hcap, hres⟩ := hinv
  cases e with
  | acquire i =>
    simp only [step] at hstep
    split at hstep
    · rename_i hg
      obtain ⟨hp, hlt⟩ := hg
      injection hstep with hstep
      subst hstep
      have hc := slotHolders_set s i Phase.pending Phase.holding hp (s.semaphore + 1) s.results
      rw [if_neg (by decide), if_pos (by decide)] at hc
      refine ⟨by simpa using hpl, hrl, by simp only; omega, by simp only; omega, ?_⟩
      intro j hj
      simp only at hj ⊢
      rcases hj with hj | hj | hj <;>
        rcases getElem?_set_phase _ _ _ _ _ _ hp hj with ⟨_, hcb⟩ | ⟨_, hl⟩ <;>
        first
        | exact hres j (by simp [hl])
        | cases hcb
    · cases hstep
  | store i =>
    simp only [step] at hstep
    split at hstep
    · rename_i hp
      injection hstep with hstep
      subst hstep
      have hc := slotHolders_set s i Phase.holding Phase.stored hp s.semaphore
        (s.results.set i (chunkDescriptions (chunks.getD i [])))
      rw [if_pos (by decide), if_pos (by decide)] at hc
      refine ⟨by simpa using hpl, by simpa using hrl, by simp only; omega, hcap, ?_⟩
      intro j hj
      simp only at hj ⊢
      have hilt : i < s.results.length := by
        rw [hrl, ← hpl]; exact (List.getElem?_eq_some_iff.1 hp).1
      by_cases hji : j = i
      · subst hji
        rw [List.getElem?_set_self hilt]
      · rw [List.getElem?_set_ne (fun h => hji h.symm)]
        rcases hj with hj | hj | hj <;>
          rcases getElem?_set_phase _ _ _ _ _ _ hp hj with ⟨h1, _⟩ | ⟨_, hl⟩ <;>
          first
          | exact absurd h1 hji
          | exact hres j (by simp [hl])
    · cases hstep
  | release i =>
    simp only [step] at hstep
    split at hstep
    · rename_i hg
      obtain ⟨hp, hpos⟩ := hg
      injection hstep with hstep
      subst hstep
      have hc := slotHolders_set s i Phase.stored Phase.released hp (s.semaphore - 1) s.results
      rw [if_pos (by decide), if_neg (by decide)] at hc
      refine ⟨by simpa using hpl, hrl, by simp only; omega, by simp only; omega, ?_⟩
      intro j hj
      simp only at hj ⊢
      rcases hj with hj | hj | hj <;>
        rcases getElem?_set_phase _ _ _ _ _ _ hp hj with ⟨h1, _⟩ | ⟨_, hl⟩ <;>
        first
        | exact hres j (by simp [hl])
        | (subst h1; exact hres _ (Or.inl hp))
    · cases hstep
  | done i =>
    simp only [step] at hstep
    split at hstep
    · rename_i hp
      injection hstep with hstep
      subst hstep
      have hc := slotHolders_set s i Phase.released Phase.finished hp s.semaphore s.results
      rw [if_neg (by decide), if_neg (by decide)] at hc
      refine ⟨by simpa using hpl, hrl, by simp only; omega, hcap, ?_⟩
      intro j hj
      simp only at hj ⊢
      rcases hj with hj | hj | hj <;>
        rcases getElem?_set_phase _ _ _ _ _ _ hp hj with ⟨h1, _⟩ | ⟨_, hl⟩ <;>
        first
        | exact hres j (by simp [hl])
        | (subst h1; exact hres _ (Or.inr (Or.inl hp)))
    · cases hstep

theorem poolInv_runEvents (capacity : Nat) (chunks : List (List JSONValue)) :
    ∀ (schedule : List Event) (s s1 : PoolState), PoolInv capacity chunks s →
      runEvents capacity chunks schedule s = some s1 → PoolInv capacity chunks s1 := by
  intro schedule
  induction schedule with
  | nil =>
    intro s s1 hinv h
    simp only [runEvents, Option.some.injEq] at h
    exact h ▸ hinv
  | cons e rest ih =>
    intro s s1 hinv h
    simp only [runEvents] at h
    split at h
    · rename_i s2 hs2
      exact ih s2 s1 (poolInv_step capacity chunks s s2 e hinv hs2) h
    · cases h

/-! ## Worker pool: the result once every goroutine is done -/

theorem results_of_allFinished (capacity : Nat) (chunks : List (List JSONValue))
    (s : PoolState) (hinv : PoolInv capacity chunks s) (hfin : allFinished s = true) :
    s.results = chunks.map chunkDescriptions := by
  obtain ⟨hpl, hrl, _, _, hres⟩ := hinv
  apply List.ext_getElem?
  intro i
  by_cases hi : i < chunks.length
  · have hlt : i < s.phases.length := by omega
    have hmem : s.phases[i] ∈ s.phases := List.getElem_mem hlt
    have hall : ∀ p ∈ s.phases, p = Phase.finished := by
      simpa [allFinished] using hfin
    have hph : s.phases[i]? = some Phase.finished := by
      rw [List.getElem?_eq_getElem hlt, hall _ hmem]
    rw [hres i (Or.inr (Or.inr hph))]
    simp [List.getElem?_eq_getElem hi, List.getD_eq_getElem _ _ hi]
  · rw [List.getElem?_eq_none (by omega), List.getElem?_eq_none (by simp; omega)]

theorem flatten_map_chunkDescriptions (chunks : List (List JSONValue)) :
    (chunks.map chunkDescriptions).flatten = chunks.flatten.flatMap recordDescriptions := by
  induction chunks with
  | nil => rfl
  | cons c rest ih =>
    rw [List.map_cons, List.flatten_cons, List.flatten_cons, List.flatMap_append, ih]
    unfold chunkDescriptions
    rw [extractItems_eq_flatMap]

theorem processChunksWith_done (capacity : Nat) (schedule : List Event)
    (chunks : List (List JSONValue)) (r : List String)
    (h : processChunksWith capacity schedule chunks = .done r) :
    r = chunks.flatten.flatMap recordDescriptions := by
  unfold processChunksWith at h
  split at h
  · rename_i s hs
    split at h
    · rename_i hfin
      injection h with h
      have hinv := poolInv_runEvents capacity chunks schedule _ s
        (poolInv_init capacity chunks) hs
      rw [← h, results_of_allFinished capacity chunks s hinv hfin,
        flatten_map_chunkDescriptions]
    · cases h
  · cases h

theorem processChunksWith_cases (capacity : Nat) (schedule : List Event)
    (chunks : List (List JSONValue)) :
    processChunksWith capacity schedule chunks
        = .done (chunks.flatten.flatMap recordDescriptions) ∨
      processChunksWith capacity schedule chunks = .badSchedule := by
  cases h : processChunksWith capacity schedule chunks with
  | done r => left; rw [processChunksWith_done capacity schedule chunks r h]
  | badSchedule => right; rfl
  | panic =>
    unfold processChunksWith at h
    split at h
    · split at h <;> cases h
    · cases h
  | outOfFuel =>
    unfold processChunksWith at h
    split at h
    · split at h <;> cases h
    · cases h

/-! ## Worker pool: the sequential run is a complete run -/

theorem runEvents_append (capacity : Nat) (chunks : List (List JSONValue)) :
    ∀ (a b : List Event) (s : PoolState),
      runEvents capacity chunks (a ++ b) s
        = (runEvents capacity chunks a s).bind (runEvents capacity chunks b) := by
  intro a
  induction a with
  | nil => intro b s; simp [runEvents]
  | cons e rest ih =>
    intro b s
    simp only [List.cons_append, runEvents]
    cases step capacity chunks s e with
    | none => simp
    | some s1 => simpa using ih b s1

theorem seqAt_round (capacity : Nat) (hcap : 1 ≤ capacity) (chunks : List (List JSONValue))
    (n j : Nat) (hj : j < n) (s : PoolState) (hs : SeqAt n j s) :
    ∃ s1, runEvents capacity chunks
        [Event.acquire j, Event.store j, Event.release j, Event.done j] s = some s1 ∧
      SeqAt n (j + 1) s1 := by
  obtain ⟨hsem, hph⟩ := hs
  have hpj : s.phases[j]? = some Phase.pending := by
    rw [hph j, if_neg (by omega), if_pos hj]
  have hlt : j < s.phases.length := (List.getElem?_eq_some_iff.1 hpj).1
  refine ⟨{ phases := (((s.phases.set j Phase.holding).set j Phase.stored).set j
              Phase.released).set j Phase.finished,
            semaphore := 0,
            results := s.results.set j (chunkDescriptions (chunks.getD j [])) }, ?_, rfl, ?_⟩
  · have hcap' : 0 < capacity := hcap
    simp [runEvents, step, hpj, hsem, hcap', hlt]
  · intro i
    by_cases hij : i = j
    · subst hij
      rw [List.getElem?_set_self (by simpa using hlt), if_pos (by omega)]
    · have hne : j ≠ i := fun h => hij h.symm
      simp only
      rw [List.getElem?_set_ne hne, List.getElem?_set_ne hne, List.getElem?_set_ne hne,
        List.getElem?_set_ne hne, hph i]
      by_cases h1 : i < j
      · rw [if_pos h1, if_pos (by omega)]
      · have h2 : ¬ i < j + 1 := by omega
        rw [if_neg h1, if_neg h2]

theorem seqAt_run (capacity : Nat) (hcap : 1 ≤ capacity) (chunks : List (List JSONValue))
    (n : Nat) :
    ∀ (d j : Nat) (s : PoolState), j + d = n → SeqAt n j s →
      ∃ s1, runEvents capacity chunks ((List.range' j d).flatMap
          (fun i => [Event.acquire i, Event.store i, Event.release i, Event.done i])) s
            = some s1 ∧ SeqAt n n s1 := by
  intro d
  induction d with
  | zero =>
    intro j s hj hs
    have : j = n := by omega
    subst this
    exact ⟨s, by simp [runEvents], hs⟩
  | succ d ih =>
    intro j s hj hs
    obtain ⟨s1, hrun1, hs1⟩ := seqAt_round capacity hcap chunks n j (by omega) s hs
    obtain ⟨s2, hrun2, hs2⟩ := ih (j + 1) s1 (by omega) hs1
    refine ⟨s2, ?_, hs2⟩
    rw [List.range'_succ, List.flatMap_cons, runEvents_append, hrun1]
    exact hrun2

theorem seqAt_init (chunks : List (List JSONValue)) :
    SeqAt chunks.length 0 (initPool chunks) := by
  refine ⟨rfl, ?_⟩
  intro i
  simp only [initPool, List.getElem?_replicate, Nat.not_lt_zero, if_false]

theorem allFinished_of_seqAt (n : Nat) (s : PoolState) (hs : SeqAt n n s) :
    allFinished s = true := by
  obtain ⟨_, hph⟩ := hs
  simp only [allFinished, List.all_eq_true, decide_eq_true_eq]
  intro p hp
  obtain ⟨i, hi⟩ := List.mem_iff_getElem?.1 hp
  rw [hph i] at hi
  by_cases h : i < n
  · rw [if_pos h] at hi
    exact (Option.some.inj hi).symm
  · rw [if_neg h, if_neg h] at hi
    cases hi

theorem processChunksWith_sequential (capacity : Nat) (hcap : 1 ≤ capacity)
    (chunks : List (List JSONValue)) :
    processChunksWith capacity (sequentialSchedule chunks.length) chunks
      = .done (chunks.flatten.flatMap recordDescriptions) := by
  obtain ⟨s1, hrun, hs1⟩ := seqAt_run capacity hcap chunks chunks.length chunks.length 0
    (initPool chunks) (by omega) (seqAt_init chunks)
  have hfin := allFinished_of_seqAt _ s1 hs1
  have hdone : processChunksWith capacity (sequentialSchedule chunks.length) chunks
      = .done s1.results.flatten := by
    unfold processChunksWith sequentialSchedule
    rw [List.range_eq_range', hrun]
    simp only [hfin, if_true]
  rw [hdone, processChunksWith_done capacity _ chunks _ hdone]

/-! ## Claims about the worker pool -/

/-- C2: for every sequence of records and every chunk size `k ≥ 1`, the chunker returns
chunks on which `processChunksConcurrently` has a complete run, and every complete run,
whatever the order in which the goroutines acquire, store, release and finish, returns
the concatenation over the records in their original order of the strings
`extractDescriptions` emits for each record: the result depends neither on `k` nor on
which chunk finished first. -/
theorem processChunksConcurrently_order (routes : List JSONValue) (k : Nat) (hk : 1 ≤ k)
    (hk63 : k < 2 ^ 63) (hlen : routes.length < 2 ^ 62) (fuel : Nat)
    (hfuel : routes.length < fuel) :
    ∃ chunks, divideIntoChunks fuel routes (k : Int) = .done chunks ∧
      (∃ schedule, processChunksConcurrently schedule chunks
        = .done (routes.flatMap recordDescriptions)) ∧
      ∀ schedule r, processChunksConcurrently schedule chunks = .done r →
        r = routes.flatMap recordDescriptions := by
  refine ⟨referenceChunks routes k,
    divideIntoChunks_reference routes k hk hk63 hlen fuel hfuel, ?_, ?_⟩
  · refine ⟨sequentialSchedule (referenceChunks routes k).length, ?_⟩
    unfold processChunksConcurrently
    rw [processChunksWith_sequential MaxConcurrency (by decide), referenceChunks_flatten routes k hk]
  · intro schedule r h
    have := processChunksWith_done MaxConcurrency schedule _ r h
    rwa [referenceChunks_flatten routes k hk] at this

/-- Witness of C2: `[{"description":"a"},{"description":"b"}]` with chunk size 1 yields
`["a","b"]` in every complete run. -/
theorem processChunksConcurrently_order_witness :
    ∃ chunks, divideIntoChunks 3 [flatRecord "a", flatRecord "b"] ((1 : Nat) : Int)
        = .done chunks ∧
      (∃ schedule, processChunksConcurrently schedule chunks = .done ["a", "b"]) ∧
      ∀ schedule r, processChunksConcurrently schedule chunks = .done r → r = ["a", "b"] :=
  processChunksConcurrently_order [flatRecord "a", flatRecord "b"] 1 (by decide) (by decide)
    (by decide) 3 (by decide)

/-- C10: in every state the pool reaches from its initial state, for any number of chunks
and any semaphore capacity `N`, at most `N` goroutines are between acquiring and releasing
the semaphore; when `N` of them are, no goroutine can acquire, and when fewer are, every
pending goroutine can. -/
theorem semaphore_bound (capacity : Nat) (chunks : List (List JSONValue))
    (schedule : List Event) (s : PoolState)
    (hrun : runEvents capacity chunks schedule (initPool chunks) = some s) :
    slotHolders s ≤ capacity ∧
      (slotHolders s = capacity → ∀ i, step capacity chunks s (.acquire i) = none) ∧
      (slotHolders s < capacity → ∀ i, s.phases[i]? = some Phase.pending →
        ∃ s1, step capacity chunks s (.acquire i) = some s1 ∧
          slotHolders s1 = slotHolders s + 1) := by
  obtain ⟨_, _, hsem, hcap, _⟩ :=
    poolInv_runEvents capacity chunks schedule _ s (poolInv_init capacity chunks) hrun
  refine ⟨by omega, ?_, ?_⟩
  · intro hfull i
    have : ¬ s.semaphore < capacity := by omega
    simp [step, this]
  · intro hfree i hp
    have hlt : s.semaphore < capacity := by omega
    refine ⟨_, by simp only [step]; rw [if_pos ⟨hp, hlt⟩], ?_⟩
    have hc := slotHolders_set s i Phase.pending Phase.holding hp (s.semaphore + 1) s.results
    rw [if_neg (by decide), if_pos (by decide)] at hc
    omega

/-- Witness of C10: capacity 1, two chunks, the second goroutine has acquired. -/
theorem semaphore_bound_witness :
    slotHolders (PoolState.mk [Phase.pending, Phase.holding] 1 [[], []]) ≤ 1 ∧
      (slotHolders (PoolState.mk [Phase.pending, Phase.holding] 1 [[], []]) = 1 →
        ∀ i, step 1 [[flatRecord "a"], [flatRecord "b"]]
          (PoolState.mk [Phase.pending, Phase.holding] 1 [[], []])
          (.acquire i) = none) ∧
      (slotHolders (PoolState.mk [Phase.pending, Phase.holding] 1 [[], []]) < 1 →
        ∀ i, ([Phase.pending, Phase.holding] : List Phase)[i]? = some Phase.pending →
          ∃ s1, step 1 [[flatRecord "a"], [flatRecord "b"]]
              (PoolState.mk [Phase.pending, Phase.holding] 1 [[], []])
              (.acquire i) = some s1 ∧
            slotHolders s1 = slotHolders (PoolState.mk [Phase.pending, Phase.holding] 1 [[], []]) + 1) :=
  semaphore_bound 1 [[flatRecord "a"], [flatRecord "b"]] [Event.acquire 1]
    (PoolState.mk [Phase.pending, Phase.holding] 1 [[], []])
    (by decide)

set_option maxRecDepth 8000

/-! ## Claims about the task -/

theorem ProcessJSONFileTask_of_done (routes : List JSONValue)
    (hlen : routes.length < 2 ^ 62) (fuel : Nat) (hfuel : routes.length < fuel)
    (schedule : List Event) (writeError : Option String) (all : List String)
    (h : processChunksConcurrently schedule (referenceChunks routes 50) = .done all) :
    ProcessJSONFileTask fuel schedule writeError routes
      = if all.length = 0 then .done (.error "no descriptions found in JSON file")
        else match writeError with
          | some err => .done (.error ("failed to write output file: " ++ err))
          | none => .done (.ok
              { InputFile := InputFileName
                OutputFile := OutputFileName
                TotalRoutes := routes.length
                TotalDescriptions := all.length
                TotalChunks := (referenceChunks routes 50).length
                Success := true }) := by
  have hd : divideIntoChunks fuel routes ChunkSize = .done (referenceChunks routes 50) :=
    divideIntoChunks_reference routes 50 (by decide) (by decide) hlen fuel hfuel
  unfold ProcessJSONFileTask
  rw [hd]
  simp only [h]

theorem ProcessJSONFileTask_done_inv (routes : List JSONValue)
    (hlen : routes.length < 2 ^ 62) (fuel : Nat) (hfuel : routes.length < fuel)
    (schedule : List Event) (writeError : Option String) (out : TaskResult)
    (h : ProcessJSONFileTask fuel schedule writeError routes = .done out) :
    processChunksConcurrently schedule (referenceChunks routes 50)
      = .done (routes.flatMap recordDescriptions) := by
  have hd : divideIntoChunks fuel routes ChunkSize = .done (referenceChunks routes 50) :=
    divideIntoChunks_reference routes 50 (by decide) (by decide) hlen fuel hfuel
  rcases processChunksWith_cases MaxConcurrency schedule (referenceChunks routes 50)
    with hc | hc
  · rw [referenceChunks_flatten routes 50 (by decide)] at hc
    exact hc
  · exfalso
    unfold ProcessJSONFileTask at h
    rw [hd] at h
    have hc' : processChunksConcurrently schedule (referenceChunks routes 50)
        = .badSchedule := hc
    simp only [hc'] at h
    cases h

theorem processChunksConcurrently_sequential (routes : List JSONValue) :
    processChunksConcurrently (sequentialSchedule (referenceChunks routes 50).length)
        (referenceChunks routes 50) = .done (routes.flatMap recordDescriptions) := by
  unfold processChunksConcurrently
  rw [processChunksWith_sequential MaxConcurrency (by decide),
    referenceChunks_flatten routes 50 (by decide)]

/-- C6: for every decoded record sequence whose flattened extraction result has zero
elements, the task has a complete run and every complete run returns the error
`no descriptions found in JSON file`, whatever the sink would answer: no successful
output. -/
theorem ProcessJSONFileTask_empty_result (routes : List JSONValue)
    (hlen : routes.length < 2 ^ 62) (fuel : Nat) (hfuel : routes.length < fuel)
    (writeError : Option String)
    (hempty : (routes.flatMap recordDescriptions).length = 0) :
    (∃ schedule, ProcessJSONFileTask fuel schedule writeError routes
        = .done (.error "no descriptions found in JSON file")) ∧
      ∀ schedule out, ProcessJSONFileTask fuel schedule writeError routes = .done out →
        out = .error "no descriptions found in JSON file" := by
  constructor
  · refine ⟨sequentialSchedule (referenceChunks routes 50).length, ?_⟩
    rw [ProcessJSONFileTask_of_done routes hlen fuel hfuel _ writeError _
      (processChunksConcurrently_sequential routes), if_pos hempty]
  · intro schedule out h
    have hp := ProcessJSONFileTask_done_inv routes hlen fuel hfuel schedule writeError out h
    rw [ProcessJSONFileTask_of_done routes hlen fuel hfuel schedule writeError _ hp,
      if_pos hempty] at h
    injection h with h
    exact h.symm

/-- Witness of C6: the input `[{}, {}, []]`. -/
theorem ProcessJSONFileTask_empty_result_witness :
    (∃ schedule, ProcessJSONFileTask 4 schedule none [.object [], .object [], .array []]
        = .done (.error "no descriptions found in JSON file")) ∧
      ∀ schedule out,
        ProcessJSONFileTask 4 schedule none [.object [], .object [], .array []] = .done out →
        out = .error "no descriptions found in JSON file" :=
  ProcessJSONFileTask_empty_result [.object [], .object [], .array []] (by decide) 4
    (by decide) none (by decide)

theorem flatMap_flatRecord (descriptions : List String) (hne : ∀ s ∈ descriptions, s ≠ "") :
    (descriptions.map flatRecord).flatMap recordDescriptions = descriptions := by
  induction descriptions with
  | nil => rfl
  | cons s rest ih =>
    have hs : s ≠ "" := hne s (List.mem_cons_self _ _)
    rw [List.map_cons, List.flatMap_cons, ih (fun t ht => hne t (List.mem_cons_of_mem _ ht))]
    simp [recordDescriptions, flatRecord, extractDescriptions, extractEntries, hs]

/-- C9: for every `n ≥ 1` and every sequence of `n` flat records `{"description": s_i}`
with non-empty `s_i`, the task (chunk size 50, the sink accepting the write) has a
complete run and every complete run succeeds with `TotalRoutes = n`,
`TotalDescriptions = n`, `TotalChunks = ceil (n / 50)` and `Success = true`. -/
theorem ProcessJSONFileTask_flat_records (descriptions : List String)
    (hn : 1 ≤ descriptions.length) (hne : ∀ s ∈ descriptions, s ≠ "")
    (hlen : descriptions.length < 2 ^ 62) (fuel : Nat) (hfuel : descriptions.length < fuel) :
    (∃ schedule, ProcessJSONFileTask fuel schedule none (descriptions.map flatRecord)
        = .done (.ok
            { InputFile := "routes-large.json"
              OutputFile := "descriptions.txt"
              TotalRoutes := descriptions.length
              TotalDescriptions := descriptions.length
              TotalChunks := (descriptions.length + 50 - 1) / 50
              Success := true })) ∧
      ∀ schedule out,
        ProcessJSONFileTask fuel schedule none (descriptions.map flatRecord) = .done out →
        out = .ok
            { InputFile := "routes-large.json"
              OutputFile := "descriptions.txt"
              TotalRoutes := descriptions.length
              TotalDescriptions := descriptions.length
              TotalChunks := (descriptions.length + 50 - 1) / 50
              Success := true } := by
  have hlen' : (descriptions.map flatRecord).length < 2 ^ 62 := by simpa using hlen
  have hfuel' : (descriptions.map flatRecord).length < fuel := by simpa using hfuel
  have hall := flatMap_flatRecord descriptions hne
  have hpos : ¬ descriptions.length = 0 := by omega
  have hchunks : (referenceChunks (descriptions.map flatRecord) 50).length
      = (descriptions.length + 50 - 1) / 50 := by
    rw [referenceChunks_length, List.length_map]; rfl
  constructor
  · refine ⟨sequentialSchedule (referenceChunks (descriptions.map flatRecord) 50).length, ?_⟩
    rw [ProcessJSONFileTask_of_done _ hlen' fuel hfuel' _ none _
      (processChunksConcurrently_sequential _), hall, if_neg hpos]
    simp only [hchunks, List.length_map, InputFileName, OutputFileName]
  · intro schedule out h
    have hp := ProcessJSONFileTask_done_inv _ hlen' fuel hfuel' schedule none out h
    rw [ProcessJSONFileTask_of_done _ hlen' fuel hfuel' schedule none _ hp, hall,
      if_neg hpos] at h
    simp only [hchunks, List.length_map, InputFileName, OutputFileName] at h
    injection h with h
    exact h.symm

/-- Witness of C9: 500 flat records give 10 chunks and 500 extracted strings. -/
theorem ProcessJSONFileTask_flat_records_witness :
    (∃ schedule, ProcessJSONFileTask 501 schedule none
        ((List.replicate 500 "x").map flatRecord)
        = .done (.ok
            { InputFile := "routes-large.json"
              OutputFile := "descriptions.txt"
              TotalRoutes := 500
              TotalDescriptions := 500
              TotalChunks := 10
              Success := true })) ∧
      ∀ schedule out,
        ProcessJSONFileTask 501 schedule none ((List.replicate 500 "x").map flatRecord)
          = .done out →
        out = .ok
            { InputFile := "routes-large.json"
              OutputFile := "descriptions.txt"
              TotalRoutes := 500
              TotalDescriptions := 500
              TotalChunks := 10
              Success := true } :=
  ProcessJSONFileTask_flat_records (List.replicate 500 "x") (by simp)
    (fun s hs => by rw [List.eq_of_mem_replicate hs]; decide) (by simp) 501 (by simp)

end Tasks
